import Mathlib

/-!
Verification of the PDF-to-JSON conversion core (`src/pdf_to_json.py`).

Shallow embedding conventions:
* Python strings are modelled as `Str := List Char` (ASCII fragment of Unicode;
  the character-class tests `isdigit`, `\d`, `strip` are modelled by the
  corresponding ASCII predicates `Char.isDigit` / `Char.isWhitespace`).
* Python dicts (insertion-ordered, unique keys) are modelled as association
  lists in insertion order; assignment `d[k] = v` is `dinsert` (replace in
  place if present, append otherwise) and lookup is `dget?`.
* `page.extract_text()` returning `None` is modelled as `Option Str`;
  a page's `/Resources['/XObject']` collection is modelled as
  `Option (List Str)` holding the declared `/Subtype` of each entry in
  dictionary iteration order (`none` when the page has no `/XObject` key).
* Exceptions that the source catches locally (`AttributeError` in
  `process_outlines`, `ValueError`/`TypeError` in `standardize_metadata`)
  are modelled as `Option`/skipped branches.
-/

abbrev Str := List Char

def str (s : String) : Str := s.toList

/-! ## TextFilter: `extract_text_from_page` (src/pdf_to_json.py lines 12-37) -/

/-- Python `str.split(sep)` for a one-character separator (never returns `[]`;
splitting the empty string yields `[[]]`). -/
def splitOnChar (sep : Char) : Str → List Str
  | [] => [[]]
  | c :: rest =>
    if c = sep then [] :: splitOnChar sep rest
    else
      match splitOnChar sep rest with
      | s :: ss => (c :: s) :: ss
      | [] => [[c]]

/-- Python `'\n'.join(lines)`. -/
def joinNL : List Str → Str
  | [] => []
  | [l] => l
  | l :: rest => l ++ ('\n') :: joinNL rest

def isPyWS (c : Char) : Bool := c.isWhitespace

/-- Python `str.strip()`: drop leading and trailing whitespace. -/
def pyStrip (s : Str) : Str :=
  ((s.dropWhile isPyWS).reverse.dropWhile isPyWS).reverse

/-- Python `str.isdigit()` on the ASCII fragment: nonempty and all digits. -/
def pyIsDigitStr (s : Str) : Bool :=
  decide (s ≠ []) && s.all Char.isDigit

/-- The regex `^\s*\d+\s*$` (line 32): optional whitespace, one or more digits,
optional whitespace, matching the whole string.  Greedy matching with the
disjoint classes `\s`/`\d` reduces to this takeWhile/dropWhile form. -/
def reNumOnly (s : Str) : Bool :=
  let r := s.dropWhile isPyWS
  decide (r.takeWhile Char.isDigit ≠ []) && (r.dropWhile Char.isDigit).all isPyWS

/-- The regex `^\d{1,2}/\d{1,2}/\d{2,4}$` (line 34).  A full match is exactly a
split into three all-digit groups on `'/'` (which `\d` cannot match) with the
given length bounds. -/
def matchShortDate (s : Str) : Bool :=
  match splitOnChar ('/') s with
  | [a, b, c] =>
    decide (1 ≤ a.length) && decide (a.length ≤ 2) && a.all Char.isDigit &&
    decide (1 ≤ b.length) && decide (b.length ≤ 2) && b.all Char.isDigit &&
    decide (2 ≤ c.length) && decide (c.length ≤ 4) && c.all Char.isDigit
  | _ => false

/-- The line-keeping test of lines 32-35: kept iff it fails the bare-number
regex, fails `isdigit`, fails the short-date regex, and its stripped length
exceeds 2. -/
def keepLine (line : Str) : Bool :=
  let stripped := pyStrip line
  !(reNumOnly stripped) && !(pyIsDigitStr stripped) &&
    !(matchShortDate stripped) && decide (2 < stripped.length)

/-- `extract_text_from_page` (lines 12-37); the argument is the result of
`page.extract_text()` (`none` models Python `None`). -/
def extract_text_from_page (text : Option Str) : Str :=
  match text with
  | none => []
  | some t =>
    if t = [] then []
    else joinNL (((splitOnChar ('\n') t)).filter keepLine)

/-! ## ImageDetector: `extract_image_info` (lines 39-57) -/

/-- `extract_image_info` (lines 49-57).  The argument is the page's
`/XObject` collection: `none` when `'/XObject' not in page['/Resources']`,
otherwise the list of each entry's `'/Subtype'` value in iteration order.
The loop appends one `"[Image]"` placeholder for every entry whose subtype
is `'/Image'`. -/
def extract_image_info (xobjects : Option (List Str)) : List Str :=
  match xobjects with
  | none => []
  | some objs =>
    objs.foldl (fun images o =>
      if o = str ("/Image") then images ++ [str ("[Image]")] else images) []

/-! ## OutlineFlattener: `process_outlines` (lines 59-87) -/

structure ChapterStub where
  title : Str
  level : Nat
  start_page : Nat
deriving DecidableEq, Repr

/-- A PyPDF2 outline item: either a nested list (sub-outline) or a single
destination node.  A node carries `some (title, page)` when
`outline.title` / `reader.get_destination_page_number(outline)` succeed and
`none` when that resolution raises `AttributeError`. -/
inductive OutlineItem where
  | node : Option (Str × Nat) → OutlineItem
  | group : List OutlineItem → OutlineItem

mutual

/-- `process_outlines` (lines 59-87): recursive flattening of the outline. -/
def process_outlines : List OutlineItem → Nat → List ChapterStub
  | [], _ => []
  | o :: rest, level => process_item o level ++ process_outlines rest level

/-- One iteration of the `for outline in outlines:` loop body. -/
def process_item : OutlineItem → Nat → List ChapterStub
  | .node none, _ => []
  | .node (some tp), level => [⟨tp.1, level, tp.2⟩]
  | .group sub, level => process_outlines sub (level + 1)

end

/-! ## MetadataNormalizer: `standardize_metadata` (lines 89-120)

The date branch calls `datetime.strptime(date_str, '%Y%m%d%H%M%S')`.
CPython compiles that format to the regex
`(?P<Y>\d\d\d\d)(?P<m>1[0-2]|0[1-9]|[1-9])(?P<d>3[01]|[12]\d|0[1-9]|[1-9])`
`(?P<H>2[0-3]|[0-1]\d|\d)(?P<M>[0-5]\d|\d)(?P<S>6[0-1]|[0-5]\d|\d)`,
takes the first (leftmost, alternatives in order, LIFO backtracking = DFS)
match, raises `ValueError` if that match does not consume the whole string
("unconverted data remains"), and then builds a `datetime`, which raises
`ValueError` for a day out of range for the month, year 0, or second > 59.
The matchers below return the priority-ordered list of (value, rest)
alternatives of each group; `strptimeMatch` is the DFS over them. -/

def digitVal (c : Char) : Nat := c.toNat - 48

def digitChar (n : Nat) : Char :=
  [('0'), ('1'), ('2'), ('3'), ('4'), ('5'), ('6'), ('7'), ('8'), ('9')].getD (n % 10) ('0')

/-- Group `Y`: exactly four digits. -/
def yMatch : Str → Option (Nat × Str)
  | a :: b :: c :: d :: rest =>
    if a.isDigit && b.isDigit && c.isDigit && d.isDigit then
      some (((digitVal a * 10 + digitVal b) * 10 + digitVal c) * 10 + digitVal d, rest)
    else none
  | _ => none

/-- Group `m`: `1[0-2]|0[1-9]|[1-9]`, alternatives in priority order. -/
def mAlts : Str → List (Nat × Str)
  | a :: b :: rest =>
    (if a = '1' && b.isDigit && decide (digitVal b ≤ 2) then [(10 + digitVal b, rest)] else []) ++
    (if a = '0' && b.isDigit && decide (1 ≤ digitVal b) then [(digitVal b, rest)] else []) ++
    (if a.isDigit && decide (1 ≤ digitVal a) then [(digitVal a, b :: rest)] else [])
  | [a] => if a.isDigit && decide (1 ≤ digitVal a) then [(digitVal a, [])] else []
  | [] => []

/-- Group `d`: `3[01]|[12]\d|0[1-9]|[1-9]`. -/
def dAlts : Str → List (Nat × Str)
  | a :: b :: rest =>
    (if a = '3' && b.isDigit && decide (digitVal b ≤ 1) then [(30 + digitVal b, rest)] else []) ++
    (if (a = '1' || a = '2') && b.isDigit then [(digitVal a * 10 + digitVal b, rest)] else []) ++
    (if a = '0' && b.isDigit && decide (1 ≤ digitVal b) then [(digitVal b, rest)] else []) ++
    (if a.isDigit && decide (1 ≤ digitVal a) then [(digitVal a, b :: rest)] else [])
  | [a] => if a.isDigit && decide (1 ≤ digitVal a) then [(digitVal a, [])] else []
  | [] => []

/-- Group `H`: `2[0-3]|[0-1]\d|\d`. -/
def hAlts : Str → List (Nat × Str)
  | a :: b :: rest =>
    (if a = '2' && b.isDigit && decide (digitVal b ≤ 3) then [(20 + digitVal b, rest)] else []) ++
    (if (a = '0' || a = '1') && b.isDigit then [(digitVal a * 10 + digitVal b, rest)] else []) ++
    (if a.isDigit then [(digitVal a, b :: rest)] else [])
  | [a] => if a.isDigit then [(digitVal a, [])] else []
  | [] => []

/-- Group `M`: `[0-5]\d|\d`. -/
def minAlts : Str → List (Nat × Str)
  | a :: b :: rest =>
    (if a.isDigit && decide (digitVal a ≤ 5) && b.isDigit then
        [(digitVal a * 10 + digitVal b, rest)] else []) ++
    (if a.isDigit then [(digitVal a, b :: rest)] else [])
  | [a] => if a.isDigit then [(digitVal a, [])] else []
  | [] => []

/-- Group `S`: `6[0-1]|[0-5]\d|\d`. -/
def sAlts : Str → List (Nat × Str)
  | a :: b :: rest =>
    (if a = '6' && b.isDigit && decide (digitVal b ≤ 1) then [(60 + digitVal b, rest)] else []) ++
    (if a.isDigit && decide (digitVal a ≤ 5) && b.isDigit then
        [(digitVal a * 10 + digitVal b, rest)] else []) ++
    (if a.isDigit then [(digitVal a, b :: rest)] else [])
  | [a] => if a.isDigit then [(digitVal a, [])] else []
  | [] => []

structure DateTime6 where
  year : Nat
  month : Nat
  day : Nat
  hour : Nat
  minute : Nat
  second : Nat
deriving DecidableEq, Repr

/-- First full-pattern match of the six groups in DFS order, together with
the unconsumed remainder (`re.match` result of the compiled format). -/
def strptimeMatch (cs : Str) : Option (DateTime6 × Str) :=
  match yMatch cs with
  | none => none
  | some (y, r1) =>
    (mAlts r1).findSome? fun mr =>
      (dAlts mr.2).findSome? fun dr =>
        (hAlts dr.2).findSome? fun hr =>
          (minAlts hr.2).findSome? fun nr =>
            (sAlts nr.2).findSome? fun sr =>
              some (⟨y, mr.1, dr.1, hr.1, nr.1, sr.1⟩, sr.2)

def isLeapYear (y : Nat) : Bool :=
  (y % 4 == 0 && y % 100 != 0) || y % 400 == 0

def daysInMonth (y m : Nat) : Nat :=
  if m = 2 then (if isLeapYear y then 29 else 28)
  else if m = 4 ∨ m = 6 ∨ m = 9 ∨ m = 11 then 30 else 31

/-- `datetime.strptime(cs, '%Y%m%d%H%M%S')` as an `Option`: `none` models the
`ValueError` raised for no regex match, unconverted trailing data, or an
invalid calendar value (the month/day/hour/minute lower and upper bounds the
regex already guarantees are not re-checked here; the remaining `datetime`
constructor checks are year ≥ 1, day ≤ days in month, second ≤ 59). -/
def pyStrptimeYmdHMS (cs : Str) : Option DateTime6 :=
  match strptimeMatch cs with
  | none => none
  | some (t, rest) =>
    if rest = [] ∧ 1 ≤ t.year ∧ t.day ≤ daysInMonth t.year t.month ∧ t.second ≤ 59 then
      some t
    else none

def pad2 (n : Nat) : Str := [digitChar (n / 10), digitChar n]

def pad4 (n : Nat) : Str :=
  [digitChar (n / 1000), digitChar (n / 100), digitChar (n / 10), digitChar n]

/-- `datetime.isoformat()` for a whole-second datetime: `YYYY-MM-DDTHH:MM:SS`. -/
def isoformat (t : DateTime6) : Str :=
  pad4 t.year ++ ('-') :: (pad2 t.month ++ ('-') :: (pad2 t.day ++
    ('T') :: (pad2 t.hour ++ (':') :: (pad2 t.minute ++ (':') :: pad2 t.second))))

/-- The date-normalization attempt of lines 106-112, applied to a non-empty
value of a date key: slice `value[2:16]` when the value starts with `"D:"`,
parse with `strptime`, and on success replace with ISO-8601 plus `"Z"`;
on failure (`ValueError`/`TypeError`) keep the original value. -/
def normalizeDate (value : Str) : Str :=
  let date_str := if value.take 2 = str ("D:") then (value.drop 2).take 14 else value
  match pyStrptimeYmdHMS date_str with
  | some t => isoformat t ++ [('Z')]
  | none => value

/-! ### The metadata dictionary -/

abbrev Metadata := List (Str × Str)

/-- Python dict assignment `d[k] = v` on an insertion-ordered association
list: replace in place if the key is present, else append. -/
def dinsert : Metadata → Str → Str → Metadata
  | [], k, v => [(k, v)]
  | p :: rest, k, v => if p.1 = k then (k, v) :: rest else p :: dinsert rest k v

/-- Python dict lookup (`d[k]` / `k in d`). -/
def dget? : Metadata → Str → Option Str
  | [], _ => none
  | p :: rest, k => if p.1 = k then some p.2 else dget? rest k

/-- Python `key.lstrip('/')`: remove ALL leading `'/'` characters. -/
def lstripSlash (s : Str) : Str := s.dropWhile (fun c => c == '/')

def isDateKey (k : Str) : Bool :=
  k == str ("CreationDate") || k == str ("ModDate")

/-- The value stored for one raw entry (lines 105-114): date keys with a
non-empty value go through the `strptime` attempt, everything else is
carried unchanged. -/
def mval (p : Str × Str) : Str :=
  if isDateKey (lstripSlash p.1) && decide (p.2 ≠ []) then normalizeDate p.2 else p.2

/-- One iteration of the `for key, value in metadata.items():` loop. -/
def mstep (acc : Metadata) (p : Str × Str) : Metadata :=
  dinsert acc (lstripSlash p.1) (mval p)

/-- `'Title' not in standardized or not standardized['Title']`. -/
def needsDefault (d : Metadata) (k : Str) : Bool :=
  match dget? d k with
  | none => true
  | some v => v == []

/-- `standardize_metadata` (lines 89-120).  `[]` models both `None` and the
empty dict (`if not metadata`). -/
def standardize_metadata (metadata : Metadata) : Metadata :=
  if metadata = [] then [(str ("Title"), str ("Untitled")), (str ("Author"), str ("Unknown"))]
  else
    let standardized := metadata.foldl mstep []
    let s1 :=
      if needsDefault standardized (str ("Title")) then
        dinsert standardized (str ("Title")) (str ("Untitled"))
      else standardized
    if needsDefault s1 (str ("Author")) then
      dinsert s1 (str ("Author")) (str ("Unknown"))
    else s1

/-- Modelled from the spec: the strict parse the spec describes for claim C4 —
"extract the 14 characters following it and parse as `YYYYMMDDhhmmss`", i.e.
exactly 14 digits, zero-padded two-digit fields, with valid calendar values.
Used only to compare the spec's wording with the code's `strptime`. -/
def specStrictParse14 (cs : Str) : Option DateTime6 :=
  match cs with
  | [y1, y2, y3, y4, m1, m2, d1, d2, h1, h2, n1, n2, s1, s2] =>
    if (cs.all Char.isDigit) then
      let y := ((digitVal y1 * 10 + digitVal y2) * 10 + digitVal y3) * 10 + digitVal y4
      let mo := digitVal m1 * 10 + digitVal m2
      let da := digitVal d1 * 10 + digitVal d2
      let h := digitVal h1 * 10 + digitVal h2
      let mi := digitVal n1 * 10 + digitVal n2
      let se := digitVal s1 * 10 + digitVal s2
      if 1 ≤ y ∧ 1 ≤ mo ∧ mo ≤ 12 ∧ 1 ≤ da ∧ da ≤ daysInMonth y mo ∧
          h ≤ 23 ∧ mi ≤ 59 ∧ se ≤ 59 then
        some ⟨y, mo, da, h, mi, se⟩
      else none
    else none
  | _ => none

/-! ## Theorems for image detection (claim C3) -/

theorem extract_image_info_foldl (objs : List Str) (acc : List Str) :
    objs.foldl (fun images o =>
        if o = str ("/Image") then images ++ [str ("[Image]")] else images) acc =
      acc ++ List.replicate (objs.countP (fun o => decide (o = str ("/Image"))))
        (str ("[Image]")) := by
  induction objs generalizing acc with
  | nil => simp
  | cons o rest ih =>
    by_cases h : o = str ("/Image")
    · rw [List.foldl_cons, if_pos h, ih, List.countP_cons]
      simp [h, List.replicate_succ]
    · simp [List.foldl_cons, h, ih, List.countP_cons]

/-- C3 (counterexample): on a page whose `/XObject` collection declares two
image entries, `extract_image_info` returns two placeholders — neither the
singleton `["[Image]"]` nor `[]`; the loop does not stop after the first
match. -/
theorem c3_counterexample :
    ¬ (extract_image_info (some [str ("/Image"), str ("/Image")]) = [str ("[Image]")] ∨
       extract_image_info (some [str ("/Image"), str ("/Image")]) = []) := by
  decide

/-- C3 (amended): image detection returns the empty list when the
`/XObject` collection is absent, and otherwise one `"[Image]"` placeholder
for every entry whose declared subtype is `"/Image"` (presence is reported
once per image object, not once per page). -/
theorem c3_amended_image_markers :
    extract_image_info none = [] ∧
    ∀ objs : List Str,
      extract_image_info (some objs) =
        List.replicate (objs.countP (fun o => decide (o = str ("/Image"))))
          (str ("[Image]")) := by
  refine ⟨rfl, fun objs => ?_⟩
  simpa using extract_image_info_foldl objs []

/-! ## Theorems for outline flattening (claims C7, C8) -/

theorem process_outlines_append (l1 l2 : List OutlineItem) (level : Nat) :
    process_outlines (l1 ++ l2) level =
      process_outlines l1 level ++ process_outlines l2 level := by
  induction l1 with
  | nil => simp [process_outlines]
  | cons o rest ih => simp [process_outlines, ih]

/-- C7: outline flattening is a pre-order depth-first traversal: a nested
group recurses with `level + 1` and its stubs are spliced in place; output
preserves document order (no sorting by page — the example keeps start pages
`[5, 2]` in declared order) and each stub's level equals its nesting depth. -/
theorem c7_flatten_preorder :
    (∀ (pre : List OutlineItem) (sub : List OutlineItem) (post : List OutlineItem)
        (level : Nat),
      process_outlines (pre ++ OutlineItem.group sub :: post) level =
        process_outlines pre level ++ process_outlines sub (level + 1) ++
          process_outlines post level) ∧
    process_outlines
        [OutlineItem.node (some (str ("A"), 5)),
         OutlineItem.group [OutlineItem.node (some (str ("B"), 2))]] 0 =
      [⟨str ("A"), 0, 5⟩, ⟨str ("B"), 1, 2⟩] := by
  constructor
  · intro pre sub post level
    rw [process_outlines_append]
    simp [process_outlines, process_item]
  · decide

/-- C8: a leaf entry whose (title, destination page) resolution fails (models
the `AttributeError` branch of lines 77-86) contributes no stub and traversal
continues with the remaining entries exactly as if the entry were absent;
the failure is never surfaced. -/
theorem c8_unresolvable_skipped :
    ∀ (pre post : List OutlineItem) (level : Nat),
      process_outlines (pre ++ OutlineItem.node none :: post) level =
        process_outlines (pre ++ post) level := by
  intro pre post level
  rw [process_outlines_append, process_outlines_append]
  simp [process_outlines, process_item]


/-! ## Dictionary lemmas -/

def keysOf (d : Metadata) : List Str := d.map Prod.fst

@[simp] theorem keysOf_nil : keysOf [] = [] := rfl

@[simp] theorem keysOf_cons (p : Str × Str) (d : Metadata) :
    keysOf (p :: d) = p.1 :: keysOf d := rfl

theorem dget?_dinsert_self (d : Metadata) (k v : Str) :
    dget? (dinsert d k v) k = some v := by
  induction d with
  | nil => simp [dinsert, dget?]
  | cons p rest ih =>
    by_cases h : p.1 = k
    · simp [dinsert, h, dget?]
    · simp [dinsert, h, dget?, ih]

theorem dget?_dinsert_ne (d : Metadata) (k v q : Str) (h : q ≠ k) :
    dget? (dinsert d k v) q = dget? d q := by
  induction d with
  | nil => simp [dinsert, dget?, Ne.symm h]
  | cons p rest ih =>
    by_cases hp : p.1 = k
    · have h2 : p.1 ≠ q := by rw [hp]; exact Ne.symm h
      simp [dinsert, hp, dget?, Ne.symm h, h2]
    · simp [dinsert, hp, dget?, ih]

theorem mem_dinsert (d : Metadata) (k v : Str) (p : Str × Str) (h : p ∈ dinsert d k v) :
    p ∈ d ∨ p = (k, v) := by
  induction d with
  | nil =>
    simp [dinsert] at h
    right; exact h
  | cons x rest ih =>
    by_cases hx : x.1 = k
    · simp [dinsert, hx] at h
      rcases h with h | h
      · right; exact h
      · left; exact List.mem_cons_of_mem _ h
    · simp [dinsert, hx] at h
      rcases h with h | h
      · left; exact h ▸ List.mem_cons_self _ _
      · rcases ih h with h2 | h2
        · left; exact List.mem_cons_of_mem _ h2
        · right; exact h2

theorem keysOf_dinsert (d : Metadata) (k v : Str) :
    keysOf (dinsert d k v) = if k ∈ keysOf d then keysOf d else keysOf d ++ [k] := by
  induction d with
  | nil => simp [dinsert]
  | cons p rest ih =>
    by_cases hp : p.1 = k
    · simp [dinsert, hp]
    · by_cases hk : k ∈ keysOf rest
      · simp [dinsert, hp, ih, hk, Ne.symm hp]
      · simp [dinsert, hp, ih, hk, Ne.symm hp]

theorem nodup_keys_dinsert (d : Metadata) (k v : Str) (h : (keysOf d).Nodup) :
    (keysOf (dinsert d k v)).Nodup := by
  rw [keysOf_dinsert]
  by_cases hk : k ∈ keysOf d
  · simpa [hk]
  · simp [hk, List.nodup_append, h]

theorem dinsert_not_mem (d : Metadata) (k v : Str) (h : k ∉ keysOf d) :
    dinsert d k v = d ++ [(k, v)] := by
  induction d with
  | nil => simp [dinsert]
  | cons p rest ih =>
    rw [keysOf_cons, List.mem_cons] at h
    push_neg at h
    simp [dinsert, Ne.symm h.1, ih h.2]

/-- The last entry of `l` whose canonical (slash-stripped) key is `q`. -/
def lastWith (l : Metadata) (q : Str) : Option (Str × Str) :=
  match l with
  | [] => none
  | p :: rest =>
    match lastWith rest q with
    | some r => some r
    | none => if lstripSlash p.1 = q then some p else none

theorem lastWith_eq_none (l : Metadata) (q : Str) :
    lastWith l q = none ↔ ∀ p ∈ l, lstripSlash p.1 ≠ q := by
  induction l with
  | nil => simp [lastWith]
  | cons x rest ih =>
    cases hx : lastWith rest q with
    | some r =>
      simp only [lastWith, hx]
      constructor
      · intro h; simp at h
      · intro h
        have hn : lastWith rest q = none :=
          ih.2 (fun p hp => h p (List.mem_cons_of_mem _ hp))
        rw [hx] at hn; cases hn
    | none =>
      have hrest : ∀ p ∈ rest, lstripSlash p.1 ≠ q := ih.1 hx
      by_cases hq : lstripSlash x.1 = q
      · simp [lastWith, hx, hq]
      · simp only [lastWith, hx]
        rw [if_neg hq]
        constructor
        · intro _ p hp
          rcases List.mem_cons.1 hp with rfl | hp2
          · exact hq
          · exact hrest p hp2
        · intro _; rfl

theorem lastWith_some (l : Metadata) (q : Str) (p : Str × Str) (h : lastWith l q = some p) :
    p ∈ l ∧ lstripSlash p.1 = q := by
  induction l with
  | nil => simp [lastWith] at h
  | cons x rest ih =>
    cases hx : lastWith rest q with
    | some r =>
      rw [lastWith, hx] at h
      obtain rfl : r = p := by simpa using h
      rcases ih hx with ⟨h1, h2⟩
      exact ⟨List.mem_cons_of_mem _ h1, h2⟩
    | none =>
      rw [lastWith, hx] at h
      by_cases hq : lstripSlash x.1 = q
      · rw [if_pos hq] at h
        obtain rfl : x = p := by simpa using h
        exact ⟨List.mem_cons_self _ _, hq⟩
      · rw [if_neg hq] at h; cases h

theorem dget?_foldl_mstep (l : Metadata) : ∀ (acc : Metadata) (q : Str),
    dget? (l.foldl mstep acc) q =
      match lastWith l q with
      | some p => some (mval p)
      | none => dget? acc q := by
  induction l with
  | nil => intro acc q; simp [lastWith]
  | cons x xs ih =>
    intro acc q
    rw [List.foldl_cons, ih]
    cases hx : lastWith xs q with
    | some r => simp [lastWith, hx]
    | none =>
      by_cases hq : lstripSlash x.1 = q
      · subst hq
        simp [lastWith, hx, mstep, dget?_dinsert_self]
      · simp [lastWith, hx, hq, mstep, dget?_dinsert_ne _ _ _ _ (Ne.symm hq)]

/-! ## Theorems for metadata normalization (claims C4, C5) -/

theorem standardize_single_date (k v : Str) (hk : isDateKey k = true)
    (hlk : lstripSlash k = k) (hkT : k ≠ str ("Title")) (hkA : k ≠ str ("Author"))
    (hv : v ≠ []) :
    standardize_metadata [(k, v)] =
      [(k, normalizeDate v), (str ("Title"), str ("Untitled")),
       (str ("Author"), str ("Unknown"))] := by
  have hv2 : decide (v ≠ []) = true := decide_eq_true hv
  have hTA : str ("Title") ≠ str ("Author") := by decide
  simp [standardize_metadata, mstep, mval, hlk, hk, hv2, needsDefault, dget?, dinsert,
    hkT, hkA, hTA]

/-- C4 (counterexample to the claim as stated): for the value
`"D:202301151234"` only 12 characters follow `"D:"`, so the spec's strict
14-character `YYYYMMDDhhmmss` parse fails and the claim requires the raw
value to be retained — but `strptime`'s flexible regex (1-2 digit
month/day/hour/minute/second fields) parses the 12 digits and the code
replaces the value with `"2023-01-15T12:03:04Z"`. -/
theorem c4_counterexample :
    ((str ("D:202301151234")).drop 2).length = 12 ∧
    specStrictParse14 (((str ("D:202301151234")).drop 2).take 14) = none ∧
    dget? (standardize_metadata [(str ("CreationDate"), str ("D:202301151234"))])
        (str ("CreationDate")) = some (str ("2023-01-15T12:03:04Z")) ∧
    str ("2023-01-15T12:03:04Z") ≠ str ("D:202301151234") := by
  refine ⟨by decide, by decide, ?_, by decide⟩
  decide

/-- C4 (amended): for date keys whose non-empty value starts with `"D:"`, the
characters at positions 2..15 (up to 14 of them) are parsed with `strptime`'s
flexible `%Y%m%d%H%M%S` regex (exactly-4-digit year, 1-2 digit
month/day/hour/minute/second, first DFS match, full consumption, calendar
validation); on success the value is replaced by the ISO-8601 date-time plus a
trailing `"Z"` (e.g. `"D:20230115123456"` becomes `"2023-01-15T12:34:56Z"`),
and on parse failure the original raw value is retained unmodified — the
field is never dropped (e.g. `"D:BADVALUE"` passes through unchanged). -/
theorem c4_date_normalization :
    dget? (standardize_metadata [(str ("CreationDate"), str ("D:20230115123456"))])
        (str ("CreationDate")) = some (str ("2023-01-15T12:34:56Z")) ∧
    dget? (standardize_metadata [(str ("CreationDate"), str ("D:BADVALUE"))])
        (str ("CreationDate")) = some (str ("D:BADVALUE")) ∧
    ∀ v : Str, v ≠ [] → v.take 2 = str ("D:") →
      ∀ k : Str, k = str ("CreationDate") ∨ k = str ("ModDate") →
        dget? (standardize_metadata [(k, v)]) k = some (normalizeDate v) ∧
        ((pyStrptimeYmdHMS ((v.drop 2).take 14) = none ∧ normalizeDate v = v) ∨
         (∃ t, pyStrptimeYmdHMS ((v.drop 2).take 14) = some t ∧
            normalizeDate v = isoformat t ++ [('Z')])) := by
  refine ⟨by decide, by decide, ?_⟩
  intro v hv hD k hk
  have hmain : standardize_metadata [(k, v)] =
      [(k, normalizeDate v), (str ("Title"), str ("Untitled")),
       (str ("Author"), str ("Unknown"))] := by
    rcases hk with rfl | rfl
    · exact standardize_single_date _ v (by decide) (by decide) (by decide) (by decide) hv
    · exact standardize_single_date _ v (by decide) (by decide) (by decide) (by decide) hv
  constructor
  · rw [hmain]; simp [dget?]
  · rw [normalizeDate]
    rw [if_pos hD]
    cases ht : pyStrptimeYmdHMS ((v.drop 2).take 14) with
    | none => left; exact ⟨rfl, rfl⟩
    | some t => right; exact ⟨t, rfl, rfl⟩

/-- C4 (witness): the general part of the amended theorem applied to the
concrete value `"D:x"` for the `ModDate` key. -/
theorem c4_witness :
    dget? (standardize_metadata [(str ("ModDate"), str ("D:x"))]) (str ("ModDate")) =
      some (normalizeDate (str ("D:x"))) :=
  (c4_date_normalization.2.2 (str ("D:x")) (by decide) (by decide)
    (str ("ModDate")) (Or.inr rfl)).1

/-- C5 (counterexample): the raw key `"//Weird"` has its canonical key
computed by `lstrip('/')`, which strips ALL leading slashes — the claim's
"exactly one" would give `"/Weird"`, which is absent from the output; and the
value of the non-date key `"Title"` is not carried through unchanged when it
is empty (it is replaced by the default `"Untitled"`). -/
theorem c5_counterexample :
    dget? (standardize_metadata [(str ("//Weird"), str ("x"))]) (str ("/Weird")) = none ∧
    dget? (standardize_metadata [(str ("//Weird"), str ("x"))]) (str ("Weird")) =
      some (str ("x")) ∧
    dget? (standardize_metadata [(str ("Title"), [])]) (str ("Title")) =
      some (str ("Untitled")) := by
  refine ⟨?_, ?_, ?_⟩ <;> decide

theorem dget?_defaultStep (d : Metadata) (dk dv q w : Str) (hw : dget? d q = some w)
    (hwne : q = dk → w ≠ []) :
    dget? (if needsDefault d dk then dinsert d dk dv else d) q = some w := by
  by_cases hq : q = dk
  · subst hq
    have hnd : needsDefault d q = false := by
      simp only [needsDefault, hw]
      simpa using hwne rfl
    simp [hnd, hw]
  · by_cases hnd : needsDefault d dk = true
    · rw [if_pos hnd, dget?_dinsert_ne _ _ _ _ hq]; exact hw
    · rw [if_neg hnd]; exact hw

/-- C5 (amended): for every non-empty raw metadata mapping, each raw key is
canonicalized by stripping ALL leading `'/'` characters (Python
`key.lstrip('/')`), and for keys other than the two date keys the value is
carried through unchanged into the output at the canonical key — except that
an empty `Title` or `Author` value is replaced by its default.  The entry is
taken to be the unique one with its canonical key (Python dict assignment
makes the last such entry win). -/
theorem c5_key_canonicalization (m : Metadata) (hm : m ≠ []) (k v : Str)
    (hmem : (k, v) ∈ m)
    (huniq : ∀ p ∈ m, lstripSlash p.1 = lstripSlash k → p = (k, v))
    (hd1 : lstripSlash k ≠ str ("CreationDate"))
    (hd2 : lstripSlash k ≠ str ("ModDate"))
    (hTA : (lstripSlash k = str ("Title")) ∨ (lstripSlash k = str ("Author")) → v ≠ []) :
    dget? (standardize_metadata m) (lstripSlash k) = some v := by
  have hmval : mval (k, v) = v := by
    have hdk : isDateKey (lstripSlash k) = false := by
      simp [isDateKey, hd1, hd2]
    simp [mval, hdk]
  have hfold : dget? (m.foldl mstep []) (lstripSlash k) = some v := by
    rw [dget?_foldl_mstep]
    cases hlw : lastWith m (lstripSlash k) with
    | none =>
      exact absurd rfl ((lastWith_eq_none m (lstripSlash k)).1 hlw (k, v) hmem)
    | some p =>
      have hp := lastWith_some m (lstripSlash k) p hlw
      have hpkv : p = (k, v) := huniq p hp.1 hp.2
      subst hpkv
      simp [hmval]
  simp only [standardize_metadata]
  rw [if_neg hm]
  exact dget?_defaultStep _ _ _ _ _
    (dget?_defaultStep _ _ _ _ _ hfold (fun h => hTA (Or.inl h)))
    (fun h => hTA (Or.inr h))

/-- C5 (witness): the amended theorem applied to the concrete mapping
`{"//Weird": "x"}`, whose canonical key is `"Weird"`. -/
theorem c5_witness :
    dget? (standardize_metadata [(str ("//Weird"), str ("x"))])
      (lstripSlash (str ("//Weird"))) = some (str ("x")) :=
  c5_key_canonicalization [(str ("//Weird"), str ("x"))] (by decide)
    (str ("//Weird")) (str ("x")) (by decide) (by decide) (by decide) (by decide)
    (by decide)

/-! ## Idempotence of metadata normalization (claim C9) -/

theorem digitChar_spec (n : Nat) : (digitChar n).isDigit = true ∧ digitChar n ≠ ('D') := by
  simp only [digitChar]
  have h : n % 10 < 10 := Nat.mod_lt _ (by norm_num)
  generalize n % 10 = r at h ⊢
  interval_cases r <;> exact ⟨by decide, by decide⟩

theorem mAlts_dash (w : Str) : mAlts (('-') :: w) = [] := by
  cases w <;> simp [mAlts]

theorem yMatch_pad4 (y : Nat) (rest : Str) :
    ∃ w, yMatch (pad4 y ++ rest) = some (w, rest) := by
  have h1 := (digitChar_spec (y / 1000)).1
  have h2 := (digitChar_spec (y / 100)).1
  have h3 := (digitChar_spec (y / 10)).1
  have h4 := (digitChar_spec y).1
  refine ⟨((digitVal (digitChar (y / 1000)) * 10 + digitVal (digitChar (y / 100))) * 10 +
      digitVal (digitChar (y / 10))) * 10 + digitVal (digitChar y), ?_⟩
  simp [pad4, yMatch, h1, h2, h3, h4]

theorem strptimeMatch_pad4_dash (y : Nat) (w : Str) :
    strptimeMatch (pad4 y ++ ('-') :: w) = none := by
  obtain ⟨v, hv⟩ := yMatch_pad4 y (('-') :: w)
  simp only [strptimeMatch, hv, mAlts_dash, List.findSome?_nil]

theorem iso_append_Z (t : DateTime6) :
    isoformat t ++ [('Z')] = pad4 t.year ++ ('-') ::
      ((pad2 t.month ++ ('-') :: (pad2 t.day ++ ('T') :: (pad2 t.hour ++
        (':') :: (pad2 t.minute ++ (':') :: pad2 t.second)))) ++ [('Z')]) := by
  simp [isoformat, List.append_assoc]

theorem pyStrptime_iso_none (t : DateTime6) :
    pyStrptimeYmdHMS (isoformat t ++ [('Z')]) = none := by
  rw [iso_append_Z]
  simp only [pyStrptimeYmdHMS, strptimeMatch_pad4_dash]

theorem iso_not_D (t : DateTime6) :
    (isoformat t ++ [('Z')]).take 2 ≠ str ("D:") := by
  have hD : str ("D:") = [('D'), (':')] := rfl
  simp only [isoformat, pad4, List.cons_append, List.take, hD]
  intro h
  have := List.head_eq_of_cons_eq h
  exact (digitChar_spec (t.year / 1000)).2 this

theorem normalizeDate_idem (v : Str) :
    normalizeDate (normalizeDate v) = normalizeDate v := by
  cases hm : pyStrptimeYmdHMS (if v.take 2 = str ("D:") then (v.drop 2).take 14 else v) with
  | none =>
    have h1 : normalizeDate v = v := by simp only [normalizeDate]; rw [hm]
    rw [h1]; exact h1
  | some t =>
    have h1 : normalizeDate v = isoformat t ++ [('Z')] := by
      simp only [normalizeDate]; rw [hm]
    rw [h1]
    simp only [normalizeDate]
    rw [if_neg (iso_not_D t), pyStrptime_iso_none t]

theorem dropWhile_idem (p : Char → Bool) (s : Str) :
    (s.dropWhile p).dropWhile p = s.dropWhile p := by
  induction s with
  | nil => rfl
  | cons c rest ih =>
    by_cases h : p c
    · simp [List.dropWhile_cons, h, ih]
    · simp [List.dropWhile_cons, h]

theorem lstripSlash_idem (s : Str) : lstripSlash (lstripSlash s) = lstripSlash s :=
  dropWhile_idem _ s

/-- An entry is stable under a second normalization pass: its key has no
leading slashes left to strip, and its value is a fixed point of the date
transformation. -/
def GoodPair (p : Str × Str) : Prop :=
  lstripSlash p.1 = p.1 ∧ mval p = p.2

instance goodPairDecidable (p : Str × Str) : Decidable (GoodPair p) :=
  inferInstanceAs (Decidable (_ ∧ _))

theorem mval_stable (p : Str × Str) : mval (lstripSlash p.1, mval p) = mval p := by
  obtain ⟨k, v⟩ := p
  by_cases hdk : isDateKey (lstripSlash k) = true
  · by_cases hv : v = []
    · have hw : mval (k, v) = v := by simp [mval, hv]
      rw [hw]
      subst hv
      simp [mval]
    · have hw : mval (k, v) = normalizeDate v := by simp [mval, hdk, hv]
      rw [hw]
      by_cases hw2 : normalizeDate v = []
      · simp [mval, hw2]
      · have hcond : (isDateKey (lstripSlash (lstripSlash k)) &&
            decide (normalizeDate v ≠ [])) = true := by
          rw [lstripSlash_idem]
          simp [hdk, hw2]
        show (if (isDateKey (lstripSlash (lstripSlash k)) &&
            decide (normalizeDate v ≠ [])) = true then normalizeDate (normalizeDate v)
          else normalizeDate v) = normalizeDate v
        rw [if_pos hcond, normalizeDate_idem]
  · have hdk2 : isDateKey (lstripSlash (lstripSlash k)) = false := by
      rw [lstripSlash_idem]
      simpa using hdk
    show (if (isDateKey (lstripSlash (lstripSlash k)) &&
        decide (mval (k, v) ≠ [])) = true then normalizeDate (mval (k, v))
      else mval (k, v)) = mval (k, v)
    simp [hdk2]

theorem goodPair_mstep (p : Str × Str) : GoodPair (lstripSlash p.1, mval p) :=
  ⟨lstripSlash_idem p.1, mval_stable p⟩

theorem foldl_mstep_good (l : Metadata) : ∀ (acc : Metadata),
    (∀ p ∈ acc, GoodPair p) → ∀ p ∈ l.foldl mstep acc, GoodPair p := by
  induction l with
  | nil => intro acc h; simpa using h
  | cons x xs ih =>
    intro acc hacc p hp
    refine ih (mstep acc x) ?_ p hp
    intro q hq
    rcases mem_dinsert _ _ _ q hq with h1 | h1
    · exact hacc q h1
    · subst h1; exact goodPair_mstep x

theorem foldl_mstep_nodup (l : Metadata) : ∀ acc, (keysOf acc).Nodup →
    (keysOf (l.foldl mstep acc)).Nodup := by
  induction l with
  | nil => intro acc h; simpa
  | cons x xs ih => intro acc h; exact ih _ (nodup_keys_dinsert _ _ _ h)

theorem foldl_mstep_rebuild (l : Metadata) : ∀ acc,
    (∀ p ∈ l, GoodPair p) → (keysOf (acc ++ l)).Nodup →
    l.foldl mstep acc = acc ++ l := by
  induction l with
  | nil => intro acc _ _; simp
  | cons x xs ih =>
    intro acc hgood hnodup
    have hx : GoodPair x := hgood x (List.mem_cons_self _ _)
    have hkey : x.1 ∉ keysOf acc := by
      have h2 : (keysOf acc ++ x.1 :: keysOf xs).Nodup := by
        have : keysOf (acc ++ x :: xs) = keysOf acc ++ x.1 :: keysOf xs := by
          simp [keysOf]
        rwa [this] at hnodup
      rw [List.nodup_append] at h2
      intro hmem
      exact h2.2.2 hmem (List.mem_cons_self _ _)
    have hstep : mstep acc x = acc ++ [x] := by
      simp only [mstep, hx.1, hx.2]
      rw [dinsert_not_mem _ _ _ hkey]
    rw [List.foldl_cons, hstep,
      ih (acc ++ [x]) (fun p hp => hgood p (List.mem_cons_of_mem _ hp))
        (by simpa [List.append_assoc] using hnodup)]
    simp

theorem needsDefault_false (d : Metadata) (k : Str) (h : needsDefault d k = false) :
    ∃ w, dget? d k = some w ∧ w ≠ [] := by
  simp only [needsDefault] at h
  cases hd : dget? d k with
  | none => rw [hd] at h; cases h
  | some w => rw [hd] at h; exact ⟨w, rfl, by simpa using h⟩

theorem standardize_hasTA (m : Metadata) :
    (∃ w, dget? (standardize_metadata m) (str ("Title")) = some w ∧ w ≠ []) ∧
    (∃ w, dget? (standardize_metadata m) (str ("Author")) = some w ∧ w ≠ []) := by
  by_cases hm : m = []
  · subst hm
    exact ⟨⟨str ("Untitled"), by decide, by decide⟩,
           ⟨str ("Unknown"), by decide, by decide⟩⟩
  · simp only [standardize_metadata]
    rw [if_neg hm]
    have hT1 : ∃ w, dget? (if needsDefault (m.foldl mstep []) (str ("Title")) then
        dinsert (m.foldl mstep []) (str ("Title")) (str ("Untitled"))
      else m.foldl mstep []) (str ("Title")) = some w ∧ w ≠ [] := by
      by_cases h : needsDefault (m.foldl mstep []) (str ("Title")) = true
      · rw [if_pos h]
        exact ⟨str ("Untitled"), dget?_dinsert_self _ _ _, by decide⟩
      · rw [if_neg h]
        exact needsDefault_false _ _ (by simpa using h)
    constructor
    · obtain ⟨w, hw, hwne⟩ := hT1
      by_cases h : needsDefault (if needsDefault (m.foldl mstep []) (str ("Title")) then
          dinsert (m.foldl mstep []) (str ("Title")) (str ("Untitled"))
        else m.foldl mstep []) (str ("Author")) = true
      · rw [if_pos h]
        refine ⟨w, ?_, hwne⟩
        rw [dget?_dinsert_ne _ _ _ _ (by decide)]
        exact hw
      · rw [if_neg h]
        exact ⟨w, hw, hwne⟩
    · by_cases h : needsDefault (if needsDefault (m.foldl mstep []) (str ("Title")) then
          dinsert (m.foldl mstep []) (str ("Title")) (str ("Untitled"))
        else m.foldl mstep []) (str ("Author")) = true
      · rw [if_pos h]
        exact ⟨str ("Unknown"), dget?_dinsert_self _ _ _, by decide⟩
      · rw [if_neg h]
        exact needsDefault_false _ _ (by simpa using h)

theorem standardize_good (m : Metadata) :
    ∀ p ∈ standardize_metadata m, GoodPair p := by
  by_cases hm : m = []
  · subst hm
    intro p hp
    simp [standardize_metadata] at hp
    rcases hp with rfl | rfl
    · exact (by decide : GoodPair (str ("Title"), str ("Untitled")))
    · exact (by decide : GoodPair (str ("Author"), str ("Unknown")))
  · simp only [standardize_metadata]
    rw [if_neg hm]
    have h0 : ∀ q ∈ m.foldl mstep [], GoodPair q :=
      foldl_mstep_good m [] (by simp)
    have h1 : ∀ q ∈ (if needsDefault (m.foldl mstep []) (str ("Title")) then
        dinsert (m.foldl mstep []) (str ("Title")) (str ("Untitled"))
      else m.foldl mstep []), GoodPair q := by
      intro q hq
      by_cases h : needsDefault (m.foldl mstep []) (str ("Title")) = true
      · rw [if_pos h] at hq
        rcases mem_dinsert _ _ _ q hq with h2 | h2
        · exact h0 q h2
        · subst h2; exact (by decide : GoodPair (str ("Title"), str ("Untitled")))
      · rw [if_neg h] at hq
        exact h0 q hq
    intro p hp
    by_cases h : needsDefault (if needsDefault (m.foldl mstep []) (str ("Title")) then
        dinsert (m.foldl mstep []) (str ("Title")) (str ("Untitled"))
      else m.foldl mstep []) (str ("Author")) = true
    · rw [if_pos h] at hp
      rcases mem_dinsert _ _ _ p hp with h2 | h2
      · exact h1 p h2
      · subst h2; exact (by decide : GoodPair (str ("Author"), str ("Unknown")))
    · rw [if_neg h] at hp
      exact h1 p hp

theorem standardize_nodup (m : Metadata) :
    (keysOf (standardize_metadata m)).Nodup := by
  by_cases hm : m = []
  · subst hm; decide
  · simp only [standardize_metadata]
    rw [if_neg hm]
    have h0 : (keysOf (m.foldl mstep [])).Nodup :=
      foldl_mstep_nodup m [] (by simp)
    have h1 : (keysOf (if needsDefault (m.foldl mstep []) (str ("Title")) then
        dinsert (m.foldl mstep []) (str ("Title")) (str ("Untitled"))
      else m.foldl mstep [])).Nodup := by
      by_cases h : needsDefault (m.foldl mstep []) (str ("Title")) = true
      · rw [if_pos h]; exact nodup_keys_dinsert _ _ _ h0
      · rw [if_neg h]; exact h0
    by_cases h : needsDefault (if needsDefault (m.foldl mstep []) (str ("Title")) then
        dinsert (m.foldl mstep []) (str ("Title")) (str ("Untitled"))
      else m.foldl mstep []) (str ("Author")) = true
    · rw [if_pos h]; exact nodup_keys_dinsert _ _ _ h1
    · rw [if_neg h]; exact h1

/-- C9: metadata normalization is idempotent — normalizing an
already-normalized mapping yields the same mapping. -/
theorem c9_standardize_idempotent : ∀ m : Metadata,
    standardize_metadata (standardize_metadata m) = standardize_metadata m := by
  intro m
  obtain ⟨⟨wT, hwT, hwTne⟩, ⟨wA, hwA, hwAne⟩⟩ := standardize_hasTA m
  have hgood := standardize_good m
  have hnodup := standardize_nodup m
  generalize hout : standardize_metadata m = out at *
  have hne : out ≠ [] := by
    intro h
    rw [h] at hwT
    simp [dget?] at hwT
  simp only [standardize_metadata]
  rw [if_neg hne]
  have hfold : out.foldl mstep [] = out := by
    simpa using foldl_mstep_rebuild out [] hgood (by simpa using hnodup)
  rw [hfold]
  have hndT : needsDefault out (str ("Title")) = false := by
    simp only [needsDefault, hwT]
    simpa using hwTne
  have hndA : needsDefault out (str ("Author")) = false := by
    simp only [needsDefault, hwA]
    simpa using hwAne
  simp [hndT, hndA]

/-! ## Theorems for the text filter (claim C6) -/

theorem splitOnChar_ne_nil (sep : Char) (s : Str) : splitOnChar sep s ≠ [] := by
  cases s with
  | nil => simp [splitOnChar]
  | cons c rest =>
    simp only [splitOnChar]
    by_cases h : c = sep
    · simp [h]
    · rw [if_neg h]
      cases hs : splitOnChar sep rest with
      | nil => simp
      | cons x xs => simp

theorem splitOnChar_no_sep (sep : Char) (s : Str) :
    ∀ l ∈ splitOnChar sep s, sep ∉ l := by
  induction s with
  | nil =>
    intro l hl
    simp [splitOnChar] at hl
    subst hl; simp
  | cons c rest ih =>
    intro l hl
    simp only [splitOnChar] at hl
    by_cases h : c = sep
    · rw [if_pos h] at hl
      rcases List.mem_cons.1 hl with rfl | hl2
      · simp
      · exact ih l hl2
    · rw [if_neg h] at hl
      cases hs : splitOnChar sep rest with
      | nil => exact absurd hs (splitOnChar_ne_nil sep rest)
      | cons x xs =>
        rw [hs] at hl
        rcases List.mem_cons.1 hl with rfl | hl2
        · intro hmem
          rcases List.mem_cons.1 hmem with heq | hmem2
          · exact h heq.symm
          · exact ih x (by rw [hs]; exact List.mem_cons_self _ _) hmem2
        · exact ih l (by rw [hs]; exact List.mem_cons_of_mem _ hl2)

theorem splitOnChar_of_not_mem (sep : Char) (x : Str) (hx : sep ∉ x) :
    splitOnChar sep x = [x] := by
  induction x with
  | nil => rfl
  | cons c cs ih =>
    have hc : ¬ c = sep := fun h => hx (by rw [h]; exact List.mem_cons_self _ _)
    simp only [splitOnChar]
    rw [if_neg hc, ih (fun hm => hx (List.mem_cons_of_mem _ hm))]

theorem splitOnChar_append_sep (sep : Char) (x r : Str) (hx : sep ∉ x) :
    splitOnChar sep (x ++ sep :: r) = x :: splitOnChar sep r := by
  induction x with
  | nil => simp [splitOnChar]
  | cons c cs ih =>
    have hc : ¬ c = sep := fun h => hx (by rw [h]; exact List.mem_cons_self _ _)
    simp only [List.cons_append, splitOnChar, List.append_eq]
    rw [if_neg hc, ih (fun hm => hx (List.mem_cons_of_mem _ hm))]

theorem splitOnChar_joinNL (ls : List Str) (hne : ls ≠ [])
    (h : ∀ l ∈ ls, ('\n') ∉ l) :
    splitOnChar ('\n') (joinNL ls) = ls := by
  induction ls with
  | nil => cases hne rfl
  | cons x rest ih =>
    cases rest with
    | nil =>
      simp only [joinNL]
      exact splitOnChar_of_not_mem _ x (h x (List.mem_cons_self _ _))
    | cons y ys =>
      simp only [joinNL]
      rw [splitOnChar_append_sep _ x _ (h x (List.mem_cons_self _ _)),
        ih (by simp) (fun l hl => h l (List.mem_cons_of_mem _ hl))]

theorem dropWhile_cons_self (p : Char → Bool) (c : Char) (rest : Str)
    (h : (c :: rest).dropWhile p = c :: rest) : p c = false := by
  by_cases hc : p c = true
  · rw [List.dropWhile_cons, if_pos hc] at h
    have h2 := congrArg List.length h
    have hle := (List.dropWhile_suffix (l := rest) p).length_le
    simp at h2
    omega
  · simpa using hc

theorem noLead_prefix (p : Char → Bool) (A B : Str) (hpre : B <+: A)
    (hA : A.dropWhile p = A) : B.dropWhile p = B := by
  cases B with
  | nil => rfl
  | cons c u =>
    obtain ⟨t, ht⟩ := hpre
    have hc : p c = false := by
      apply dropWhile_cons_self p c (u ++ t)
      have : A = c :: (u ++ t) := by rw [← ht]; simp
      rw [this] at hA
      exact hA
    rw [List.dropWhile_cons, if_neg (by simp [hc])]

theorem pyStrip_noLead (s : Str) : (pyStrip s).dropWhile isPyWS = pyStrip s := by
  apply noLead_prefix isPyWS (s.dropWhile isPyWS) _ _ (dropWhile_idem _ s)
  have hsuf : (s.dropWhile isPyWS).reverse.dropWhile isPyWS <:+
      (s.dropWhile isPyWS).reverse := List.dropWhile_suffix _
  have := hsuf.reverse
  rwa [List.reverse_reverse] at this

theorem pyStrip_noTrailRev (s : Str) :
    ((pyStrip s).reverse).dropWhile isPyWS = (pyStrip s).reverse := by
  simp only [pyStrip, List.reverse_reverse]
  exact dropWhile_idem _ _

theorem dropWhile_append_of_all (p : Char → Bool) (l1 l2 : Str) (h : l1.all p = true) :
    (l1 ++ l2).dropWhile p = l2.dropWhile p := by
  induction l1 with
  | nil => rfl
  | cons c cs ih =>
    rw [List.all_cons, Bool.and_eq_true] at h
    simp [List.dropWhile_cons, h.1, ih h.2]

theorem reNumOnly_eq_isdigit (s : Str) (hlead : s.dropWhile isPyWS = s)
    (htrail : (s.reverse).dropWhile isPyWS = s.reverse) :
    reNumOnly s = pyIsDigitStr s := by
  by_cases hall : s.all Char.isDigit = true
  · cases s with
    | nil => rfl
    | cons c rest =>
      have hc : Char.isDigit c = true := by
        rw [List.all_cons, Bool.and_eq_true] at hall
        exact hall.1
      have hdw : (c :: rest).dropWhile Char.isDigit = [] :=
        List.dropWhile_eq_nil_iff.2 (by
          intro x hx
          exact (List.all_eq_true.1 hall) x hx)
      simp only [reNumOnly, pyIsDigitStr, hlead, hdw, List.takeWhile_cons, hc]
      simp [hall]
  · -- some character is not a digit: both sides are false
    have hpy : pyIsDigitStr s = false := by
      simp only [pyIsDigitStr]
      cases h2 : s.all Char.isDigit
      · simp
      · exact absurd h2 hall
    rw [hpy]
    simp only [reNumOnly, hlead]
    cases hD : s.dropWhile Char.isDigit with
    | nil =>
      exact absurd (List.all_eq_true.2 (fun x hx =>
        List.dropWhile_eq_nil_iff.1 hD x hx)) hall
    | cons d u =>
      -- the non-digit tail would have to be all whitespace, contradicting
      -- that the stripped string has no trailing whitespace
      have hBfalse : ((d :: u).all isPyWS) = false := by
        by_contra hB2
        have hBtrue : ((d :: u).all isPyWS) = true := by
          cases h2 : (d :: u).all isPyWS
          · exact absurd h2 hB2
          · rfl
        obtain ⟨t, ht⟩ := List.dropWhile_suffix (l := s) Char.isDigit
        rw [hD] at ht
        have hsrev : s.reverse = (d :: u).reverse ++ t.reverse := by
          rw [← ht]; simp
        have hlen : (s.reverse.dropWhile isPyWS).length < s.reverse.length := by
          rw [hsrev, dropWhile_append_of_all isPyWS _ _ (by
            rw [List.all_reverse]; exact hBtrue)]
          have h3 := (List.dropWhile_suffix (l := t.reverse) isPyWS).length_le
          simp only [List.length_reverse] at h3
          simp only [List.length_append, List.length_reverse, List.length_cons]
          omega
        rw [htrail] at hlen
        exact lt_irrefl _ hlen
      rw [hBfalse]
      simp

theorem keepLine_eq_claim (l : Str) :
    keepLine l = (!(pyIsDigitStr (pyStrip l)) && !(matchShortDate (pyStrip l)) &&
      decide (2 < (pyStrip l).length)) := by
  have h := reNumOnly_eq_isdigit (pyStrip l) (pyStrip_noLead l) (pyStrip_noTrailRev l)
  simp only [keepLine, h]
  cases pyIsDigitStr (pyStrip l) <;> simp

/-- C6: the text filter maps `None` to the empty string and otherwise keeps
exactly the lines, in original order and with their internal content
unmodified, whose trimmed form is not all digits, does not match the short
date pattern `D{1,2}/D{1,2}/D{2,4}` exactly, and has trimmed length greater
than 2; consequently every output line has trimmed length 0 or greater
than 2, and no output line is a bare integer or a short date. -/
theorem c6_text_filter :
    extract_text_from_page none = [] ∧
    (∀ t : Str, extract_text_from_page (some t) =
      joinNL ((splitOnChar ('\n') t).filter (fun l =>
        !(pyIsDigitStr (pyStrip l)) && !(matchShortDate (pyStrip l)) &&
          decide (2 < (pyStrip l).length)))) ∧
    (∀ text : Option Str, ∀ l ∈ splitOnChar ('\n') (extract_text_from_page text),
      ((pyStrip l).length = 0 ∨ 2 < (pyStrip l).length) ∧
        pyIsDigitStr (pyStrip l) = false ∧ matchShortDate (pyStrip l) = false) := by
  have hfun : keepLine = fun l =>
      !(pyIsDigitStr (pyStrip l)) && !(matchShortDate (pyStrip l)) &&
        decide (2 < (pyStrip l).length) := funext keepLine_eq_claim
  have hpart2 : ∀ t : Str, extract_text_from_page (some t) =
      joinNL ((splitOnChar ('\n') t).filter (fun l =>
        !(pyIsDigitStr (pyStrip l)) && !(matchShortDate (pyStrip l)) &&
          decide (2 < (pyStrip l).length))) := by
    intro t
    by_cases ht : t = []
    · subst ht; decide
    · simp only [extract_text_from_page]
      rw [if_neg ht, hfun]
  refine ⟨rfl, hpart2, ?_⟩
  intro text l hl
  have hempty : ∀ l2 ∈ splitOnChar ('\n') ([] : Str),
      ((pyStrip l2).length = 0 ∨ 2 < (pyStrip l2).length) ∧
        pyIsDigitStr (pyStrip l2) = false ∧ matchShortDate (pyStrip l2) = false := by
    intro l2 hl2
    simp [splitOnChar] at hl2
    subst hl2
    exact ⟨Or.inl (by decide), by decide, by decide⟩
  cases text with
  | none => exact hempty l hl
  | some t =>
    rw [hpart2 t] at hl
    set q : Str → Bool := fun l =>
      !(pyIsDigitStr (pyStrip l)) && !(matchShortDate (pyStrip l)) &&
        decide (2 < (pyStrip l).length) with hq
    by_cases hk : (splitOnChar ('\n') t).filter q = []
    · rw [hk] at hl
      exact hempty l hl
    · rw [splitOnChar_joinNL _ hk (fun l2 hl2 =>
        splitOnChar_no_sep ('\n') t l2 (List.mem_of_mem_filter hl2))] at hl
      have hql : q l = true := List.of_mem_filter hl
      rw [hq] at hql
      simp only [Bool.and_eq_true, Bool.not_eq_true', decide_eq_true_eq] at hql
      exact ⟨Or.inr hql.2, hql.1.1, hql.1.2⟩

/-- C6 (witness): the filtering property applied to the concrete page text
`"Hello\n1\nAB"` (the bare page number `"1"` and the two-character line
`"AB"` are dropped) and its surviving output line `"Hello"`. -/
theorem c6_witness :
    (((pyStrip (str ("Hello"))).length = 0 ∨ 2 < (pyStrip (str ("Hello"))).length) ∧
      pyIsDigitStr (pyStrip (str ("Hello"))) = false ∧
      matchShortDate (pyStrip (str ("Hello"))) = false) ∧
    extract_text_from_page (some (str ("Hello\n1\nAB"))) = str ("Hello") :=
  ⟨c6_text_filter.2.2 (some (str ("Hello\n1\nAB"))) (str ("Hello")) (by decide),
   by decide⟩

/-! ## ChapterBuilder and DocumentAssembler: `pdf_to_json` (lines 122-176)

Python's `list.sort` is a stable sort; with a total comparison key,
stability plus sortedness determine the output uniquely, so the stable
insertion sort below produces exactly the list `chapters.sort(key=lambda
x: x['start_page'])` produces.  The `end_page` arithmetic is carried out
in `Int` because Python computes `start_page - 1` (which can be `-1`) and
then builds `range(start_page, end_page + 1)`. -/

/-- Insert a stub before the first element whose `start_page` is not
smaller — elements with an equal key keep their earlier position, making
`sortStubs` stable. -/
def insertStub (x : ChapterStub) : List ChapterStub → List ChapterStub
  | [] => [x]
  | y :: ys => if y.start_page < x.start_page then y :: insertStub x ys else x :: y :: ys

/-- Stable ascending sort by `start_page` (the behaviour of line 146). -/
def sortStubs : List ChapterStub → List ChapterStub
  | [] => []
  | x :: xs => insertStub x (sortStubs xs)

/-- The `end_page` assignment of line 149: each stub is paired with
`next.start_page - 1`, the last with `page_count - 1`. -/
def assignRanges : List ChapterStub → Nat → List (ChapterStub × Int)
  | [], _ => []
  | [s], pc => [(s, (pc : Int) - 1)]
  | s :: s2 :: rest, pc =>
    (s, (s2.start_page : Int) - 1) :: assignRanges (s2 :: rest) pc

/-- Python `range(start, end_page + 1)` as a list of page indices. -/
def pageRange (start : Nat) (endP : Int) : List Nat :=
  List.range' start (endP + 1 - (start : Int)).toNat

/-- A page as the conversion core sees it: the result of `extract_text()`
and the `/XObject` subtype collection (see `extract_image_info`). -/
structure PdfPage where
  text : Option Str
  xobjects : Option (List Str)
deriving DecidableEq

/-- The document handed to `pdf_to_json`: raw metadata (`[]` models
`None`/empty), `reader.outline` (`[]` models `None`/empty, both falsy), and
`reader.pages`. -/
structure PdfDocument where
  metadata : Metadata
  outline : List OutlineItem
  pages : List PdfPage

/-- `reader.pages[n]`; the default is never reached when `n` is in range. -/
def getPage (doc : PdfDocument) (n : Nat) : PdfPage :=
  doc.pages.getD n ⟨none, none⟩

/-- A chapter dict after lines 150-159: the original stub fields plus the
per-page filtered texts and the concatenated image markers. -/
structure Chapter where
  title : Str
  level : Nat
  start_page : Nat
  pages : List Str
  images : List Str
deriving DecidableEq

def fillChapter (doc : PdfDocument) (se : ChapterStub × Int) : Chapter :=
  { title := se.1.title
    level := se.1.level
    start_page := se.1.start_page
    pages := (pageRange se.1.start_page se.2).map
      (fun n => extract_text_from_page (getPage doc n).text)
    images := ((pageRange se.1.start_page se.2).map
      (fun n => extract_image_info (getPage doc n).xobjects)).flatten }

/-- The flat fallback of lines 165-176: one `{text, images}` entry per page,
in page order. -/
def flatEntries (doc : PdfDocument) : List (Str × List Str) :=
  doc.pages.map (fun p => (extract_text_from_page p.text, extract_image_info p.xobjects))

/-- The two JSON output shapes: `{"metadata", "chapters"}` or
`{"metadata", "content"}`. -/
inductive ConversionResult where
  | chapters : Metadata → List Chapter → ConversionResult
  | content : Metadata → List (Str × List Str) → ConversionResult
deriving DecidableEq

/-- `pdf_to_json` (lines 122-176), file I/O stripped: standardize the
metadata, flatten the outline, and either build sorted chapters with their
page ranges or fall back to flat per-page content. -/
def pdf_to_json (doc : PdfDocument) : ConversionResult :=
  let metadata_dict := standardize_metadata doc.metadata
  if doc.outline.isEmpty then .content metadata_dict (flatEntries doc)
  else
    let chapters := process_outlines doc.outline 0
    if chapters = [] then .content metadata_dict (flatEntries doc)
    else
      .chapters metadata_dict
        ((assignRanges (sortStubs chapters) doc.pages.length).map (fillChapter doc))

def isChapterMode : ConversionResult → Bool
  | .chapters _ _ => true
  | .content _ _ => false

/-! ## Sorting and boundary lemmas (claim C1) -/

theorem insertStub_perm (x : ChapterStub) (l : List ChapterStub) :
    (insertStub x l).Perm (x :: l) := by
  induction l with
  | nil => exact List.Perm.refl _
  | cons y ys ih =>
    by_cases h : y.start_page < x.start_page
    · rw [insertStub, if_pos h]
      exact (ih.cons y).trans (List.Perm.swap x y ys)
    · rw [insertStub, if_neg h]

theorem sortStubs_perm (l : List ChapterStub) : (sortStubs l).Perm l := by
  induction l with
  | nil => exact List.Perm.refl _
  | cons x xs ih =>
    exact (insertStub_perm x (sortStubs xs)).trans (ih.cons x)

theorem insertStub_sorted (x : ChapterStub) (l : List ChapterStub)
    (h : l.Pairwise (fun a b => a.start_page ≤ b.start_page)) :
    (insertStub x l).Pairwise (fun a b => a.start_page ≤ b.start_page) := by
  induction l with
  | nil => simp [insertStub]
  | cons y ys ih =>
    have h0 := h
    rw [List.pairwise_cons] at h
    by_cases hc : y.start_page < x.start_page
    · rw [insertStub, if_pos hc]
      rw [List.pairwise_cons]
      constructor
      · intro a ha
        rcases List.mem_cons.1 ((insertStub_perm x ys).mem_iff.1 ha) with rfl | h2
        · omega
        · exact h.1 a h2
      · exact ih h.2
    · rw [insertStub, if_neg hc]
      rw [List.pairwise_cons]
      constructor
      · intro a ha
        rcases List.mem_cons.1 ha with rfl | h2
        · omega
        · have := h.1 a h2
          omega
      · exact h0

theorem sortStubs_sorted (l : List ChapterStub) :
    (sortStubs l).Pairwise (fun a b => a.start_page ≤ b.start_page) := by
  induction l with
  | nil => simp [sortStubs]
  | cons x xs ih => exact insertStub_sorted x (sortStubs xs) ih

theorem insertStub_filter (x : ChapterStub) (l : List ChapterStub) (k : Nat) :
    (insertStub x l).filter (fun s => s.start_page == k) =
      (if x.start_page = k then [x] else []) ++
        l.filter (fun s => s.start_page == k) := by
  induction l with
  | nil =>
    by_cases h : x.start_page = k <;> simp [insertStub, List.filter_cons, h]
  | cons y ys ih =>
    by_cases hc : y.start_page < x.start_page
    · rw [insertStub, if_pos hc]
      by_cases hy : y.start_page = k
      · have hx : ¬ x.start_page = k := by omega
        simp [List.filter_cons, hy, hx, ih]
      · simp [List.filter_cons, hy, ih]
    · rw [insertStub, if_neg hc]
      by_cases hx : x.start_page = k <;> by_cases hy : y.start_page = k <;>
        simp [List.filter_cons, hx, hy]

theorem sortStubs_filter (l : List ChapterStub) (k : Nat) :
    (sortStubs l).filter (fun s => s.start_page == k) =
      l.filter (fun s => s.start_page == k) := by
  induction l with
  | nil => rfl
  | cons x xs ih =>
    rw [sortStubs, insertStub_filter, ih]
    by_cases hx : x.start_page = k <;> simp [List.filter_cons, hx]

theorem assignRanges_length (l : List ChapterStub) (pc : Nat) :
    (assignRanges l pc).length = l.length := by
  induction l with
  | nil => rfl
  | cons s rest ih =>
    cases rest with
    | nil => rfl
    | cons s2 rest2 => simp only [assignRanges, List.length_cons, ih]

theorem assignRanges_get? (l : List ChapterStub) (pc : Nat) :
    ∀ i : Nat, (assignRanges l pc)[i]? =
      (l[i]?).map (fun s => (s,
        match l[i + 1]? with
        | some s2 => (s2.start_page : Int) - 1
        | none => (pc : Int) - 1)) := by
  induction l with
  | nil => intro i; simp [assignRanges]
  | cons s rest ih =>
    intro i
    cases rest with
    | nil =>
      cases i with
      | zero => simp [assignRanges]
      | succ j => simp [assignRanges]
    | cons s2 rest2 =>
      cases i with
      | zero => simp [assignRanges]
      | succ j =>
        have h := ih j
        simp only [List.getElem?_cons_succ] at h
        simpa only [assignRanges, List.getElem?_cons_succ] using h

/-- C1: the chapter stubs are sorted ascending by `start_page` with a stable
sort (a permutation, pairwise-ascending, and for every key the subsequence
of stubs with that key is preserved — ties keep outline order), the stub at
sorted index `i` receives `end_page = start_page of stub i+1 - 1` when a
next stub exists and `page_count - 1` otherwise, and for start pages
`[5, 2, 8]` with `page_count` 10 the resulting `(start_page, end_page)`
pairs are `(2,4), (5,7), (8,9)` in that order. -/
theorem c1_chapter_boundaries (stubs : List ChapterStub) (pc : Nat)
    (_hne : stubs ≠ []) :
    (sortStubs stubs).Perm stubs ∧
    (sortStubs stubs).Pairwise (fun a b => a.start_page ≤ b.start_page) ∧
    (∀ k : Nat, (sortStubs stubs).filter (fun s => s.start_page == k) =
      stubs.filter (fun s => s.start_page == k)) ∧
    (∀ i : Nat, (assignRanges (sortStubs stubs) pc)[i]? =
      ((sortStubs stubs)[i]?).map (fun s => (s,
        match (sortStubs stubs)[i + 1]? with
        | some s2 => (s2.start_page : Int) - 1
        | none => (pc : Int) - 1))) ∧
    ((assignRanges (sortStubs
        [⟨str ("A"), 0, 5⟩, ⟨str ("B"), 0, 2⟩, ⟨str ("C"), 0, 8⟩]) 10).map
      (fun se => (se.1.start_page, se.2)) =
      [(2, (4 : Int)), (5, 7), (8, 9)]) :=
  ⟨sortStubs_perm stubs, sortStubs_sorted stubs, fun k => sortStubs_filter stubs k,
    fun i => assignRanges_get? (sortStubs stubs) pc i, by decide⟩

/-- C1 (witness): the theorem applied to the concrete stubs with start pages
`[5, 2, 8]` and page count 10. -/
theorem c1_witness :
    (assignRanges (sortStubs
        [⟨str ("A"), 0, 5⟩, ⟨str ("B"), 0, 2⟩, ⟨str ("C"), 0, 8⟩]) 10).map
      (fun se => (se.1.start_page, se.2)) = [(2, (4 : Int)), (5, 7), (8, 9)] :=
  (c1_chapter_boundaries
    [⟨str ("A"), 0, 5⟩, ⟨str ("B"), 0, 2⟩, ⟨str ("C"), 0, 8⟩] 10
    (by decide)).2.2.2.2

/-! ## Mode decision and page partition (claims C2, C10) -/

theorem pdf_to_json_flat_of_outline_nil (doc : PdfDocument) (h : doc.outline = []) :
    pdf_to_json doc = .content (standardize_metadata doc.metadata) (flatEntries doc) := by
  simp [pdf_to_json, h]

theorem pdf_to_json_flat_of_no_stubs (doc : PdfDocument)
    (h : process_outlines doc.outline 0 = []) :
    pdf_to_json doc = .content (standardize_metadata doc.metadata) (flatEntries doc) := by
  by_cases ho : doc.outline = []
  · exact pdf_to_json_flat_of_outline_nil doc ho
  · have hie : doc.outline.isEmpty = false := by
      cases hout : doc.outline
      · exact absurd hout ho
      · rfl
    simp [pdf_to_json, hie, h]

theorem pdf_to_json_chapters (doc : PdfDocument)
    (h : process_outlines doc.outline 0 ≠ []) :
    pdf_to_json doc = .chapters (standardize_metadata doc.metadata)
      ((assignRanges (sortStubs (process_outlines doc.outline 0))
        doc.pages.length).map (fillChapter doc)) := by
  have ho : doc.outline ≠ [] := by
    intro h2
    rw [h2] at h
    exact h rfl
  have hie : doc.outline.isEmpty = false := by
    cases hout : doc.outline
    · exact absurd hout ho
    · rfl
  simp [pdf_to_json, hie, h]

theorem assignRanges_last_mem (l : List ChapterStub) (pc : Nat) (h : l ≠ []) :
    ∃ s, s ∈ l ∧ (s, (pc : Int) - 1) ∈ assignRanges l pc := by
  induction l with
  | nil => cases h rfl
  | cons s rest ih =>
    cases rest with
    | nil => exact ⟨s, List.mem_cons_self _ _, by simp [assignRanges]⟩
    | cons s2 rest2 =>
      obtain ⟨x, hx1, hx2⟩ := ih (by simp)
      exact ⟨x, List.mem_cons_of_mem _ hx1,
        by rw [assignRanges]; exact List.mem_cons_of_mem _ hx2⟩

/-- C2: chapter-mode output is chosen iff an outline exists, flattening it
yields at least one stub, and the built chapter list contains at least one
non-degenerate chapter (non-empty page range) — under the data-model
invariant that every stub's `start_page` is a valid page index (the
collaborator resolves destinations to pages of the document); in every
other case the result is flat per-page mode with one `{text, images}` entry
per document page, in page order. -/
theorem c2_mode_decision (doc : PdfDocument)
    (hvalid : ∀ s ∈ process_outlines doc.outline 0, s.start_page < doc.pages.length) :
    (isChapterMode (pdf_to_json doc) = true ↔
      (doc.outline ≠ [] ∧ process_outlines doc.outline 0 ≠ [] ∧
        ∃ se ∈ assignRanges (sortStubs (process_outlines doc.outline 0))
            doc.pages.length, (se.1.start_page : Int) ≤ se.2)) ∧
    (isChapterMode (pdf_to_json doc) = false →
      pdf_to_json doc = .content (standardize_metadata doc.metadata)
        (doc.pages.map (fun p =>
          (extract_text_from_page p.text, extract_image_info p.xobjects)))) := by
  by_cases hstub : process_outlines doc.outline 0 = []
  · have hflat := pdf_to_json_flat_of_no_stubs doc hstub
    constructor
    · constructor
      · intro hmode
        rw [hflat] at hmode
        simp [isChapterMode] at hmode
      · rintro ⟨_, h2, _⟩
        exact absurd hstub h2
    · intro _
      rw [hflat]
      rfl
  · have hch := pdf_to_json_chapters doc hstub
    have ho : doc.outline ≠ [] := by
      intro h2
      apply hstub
      rw [h2]
      rfl
    constructor
    · rw [hch]
      constructor
      · intro _
        refine ⟨ho, hstub, ?_⟩
        have hsne : sortStubs (process_outlines doc.outline 0) ≠ [] := by
          intro h2
          have hperm := sortStubs_perm (process_outlines doc.outline 0)
          rw [h2] at hperm
          exact hstub (hperm.symm.eq_nil)
        obtain ⟨s, hs1, hs2⟩ := assignRanges_last_mem _ doc.pages.length hsne
        refine ⟨(s, (doc.pages.length : Int) - 1), hs2, ?_⟩
        have hlt : s.start_page < doc.pages.length :=
          hvalid s ((sortStubs_perm _).mem_iff.1 hs1)
        simp only []
        omega
      · intro _; rfl
    · intro hmode
      rw [hch] at hmode
      simp [isChapterMode] at hmode

/-- C2 (witness): a one-page document with a one-leaf outline lands in
chapter mode. -/
theorem c2_witness :
    isChapterMode (pdf_to_json ⟨[], [OutlineItem.node (some (str ("A"), 0))],
      [⟨none, none⟩]⟩) = true := by
  have h := c2_mode_decision
    ⟨[], [OutlineItem.node (some (str ("A"), 0))], [⟨none, none⟩]⟩ (by decide)
  exact h.1.mpr ⟨by simp, by decide, by decide⟩

theorem sortStubs_strict (l : List ChapterStub)
    (hnd : (l.map (fun s => s.start_page)).Nodup) :
    (sortStubs l).Pairwise (fun a b => a.start_page < b.start_page) := by
  have hperm : ((sortStubs l).map (fun s => s.start_page)).Perm
      (l.map (fun s => s.start_page)) := (sortStubs_perm l).map _
  have hnd2 : ((sortStubs l).map (fun s => s.start_page)).Nodup :=
    hperm.nodup_iff.2 hnd
  have hpw : (sortStubs l).Pairwise (fun a b => a.start_page ≠ b.start_page) :=
    List.pairwise_map.1 hnd2
  exact ((sortStubs_sorted l).and hpw).imp (fun h => by omega)

theorem assignRanges_countP (l : List ChapterStub) (pc : Nat) :
    ∀ s0, l.head? = some s0 →
    l.Pairwise (fun a b => a.start_page < b.start_page) →
    (∀ s ∈ l, s.start_page < pc) →
    ∀ p : Nat, p < pc →
    (assignRanges l pc).countP
        (fun se => decide (p ∈ pageRange se.1.start_page se.2)) =
      if s0.start_page ≤ p then 1 else 0 := by
  induction l with
  | nil => intro s0 h; cases h
  | cons s rest ih =>
    intro s0 hhead hsort hvalid p hp
    obtain rfl : s = s0 := by simpa using hhead
    cases rest with
    | nil =>
      have hs : s.start_page < pc := hvalid s (List.mem_cons_self _ _)
      have hmem_iff : (p ∈ pageRange s.start_page ((pc : Int) - 1)) ↔
          (s.start_page ≤ p ∧ p < pc) := by
        simp only [pageRange, List.mem_range'_1]
        omega
      simp only [assignRanges, List.countP_cons, List.countP_nil]
      by_cases h1 : s.start_page ≤ p <;> simp [hmem_iff, h1, hp]
    | cons s2 rest2 =>
      rw [List.pairwise_cons] at hsort
      have h12 : s.start_page < s2.start_page := hsort.1 s2 (List.mem_cons_self _ _)
      have ihres := ih s2 rfl hsort.2
        (fun x hx => hvalid x (List.mem_cons_of_mem _ hx)) p hp
      have hmem_iff : (p ∈ pageRange s.start_page ((s2.start_page : Int) - 1)) ↔
          (s.start_page ≤ p ∧ p < s2.start_page) := by
        simp only [pageRange, List.mem_range'_1]
        omega
      simp only [assignRanges, List.countP_cons]
      rw [ihres]
      by_cases h1 : s.start_page ≤ p <;> by_cases h2 : s2.start_page ≤ p <;>
        simp [hmem_iff, h1, h2] <;> omega

theorem assignRanges_sum (l : List ChapterStub) (pc : Nat) :
    ∀ s0, l.head? = some s0 →
    l.Pairwise (fun a b => a.start_page < b.start_page) →
    (∀ s ∈ l, s.start_page < pc) →
    ((assignRanges l pc).map
      (fun se => (pageRange se.1.start_page se.2).length)).sum =
      pc - s0.start_page := by
  induction l with
  | nil => intro s0 h; cases h
  | cons s rest ih =>
    intro s0 hhead hsort hvalid
    obtain rfl : s = s0 := by simpa using hhead
    cases rest with
    | nil =>
      have hs : s.start_page < pc := hvalid s (List.mem_cons_self _ _)
      simp only [assignRanges, List.map_cons, List.map_nil, List.sum_cons,
        List.sum_nil]
      rw [pageRange, List.length_range']
      omega
    | cons s2 rest2 =>
      rw [List.pairwise_cons] at hsort
      have h12 : s.start_page < s2.start_page := hsort.1 s2 (List.mem_cons_self _ _)
      have h2pc : s2.start_page < pc :=
        hvalid s2 (List.mem_cons_of_mem _ (List.mem_cons_self _ _))
      have ihres := ih s2 rfl hsort.2
        (fun x hx => hvalid x (List.mem_cons_of_mem _ hx))
      simp only [assignRanges, List.map_cons, List.sum_cons]
      rw [ihres, pageRange, List.length_range']
      omega

/-- C10 (implicit claim): in chapter mode with distinct, valid start pages,
every page index from the first sorted stub's `start_page` through
`page_count - 1` lies in exactly one chapter's page range, every page below
the smallest `start_page` lies in none (its text and images are omitted from
the output), and the total number of page slots in the output is
`page_count - first start_page`. -/
theorem c10_page_partition (doc : PdfDocument) (s0 : ChapterStub)
    (hhead : (sortStubs (process_outlines doc.outline 0)).head? = some s0)
    (hnd : ((process_outlines doc.outline 0).map (fun s => s.start_page)).Nodup)
    (hvalid : ∀ s ∈ process_outlines doc.outline 0,
      s.start_page < doc.pages.length) :
    (∀ p : Nat, p < doc.pages.length →
      (assignRanges (sortStubs (process_outlines doc.outline 0))
          doc.pages.length).countP
        (fun se => decide (p ∈ pageRange se.1.start_page se.2)) =
        if s0.start_page ≤ p then 1 else 0) ∧
    (∀ p : Nat, p < s0.start_page →
      (assignRanges (sortStubs (process_outlines doc.outline 0))
          doc.pages.length).countP
        (fun se => decide (p ∈ pageRange se.1.start_page se.2)) = 0) ∧
    pdf_to_json doc = .chapters (standardize_metadata doc.metadata)
      ((assignRanges (sortStubs (process_outlines doc.outline 0))
        doc.pages.length).map (fillChapter doc)) ∧
    (((assignRanges (sortStubs (process_outlines doc.outline 0))
        doc.pages.length).map (fillChapter doc)).map
          (fun c => c.pages.length)).sum = doc.pages.length - s0.start_page := by
  have hs0mem : s0 ∈ sortStubs (process_outlines doc.outline 0) := by
    cases hl : sortStubs (process_outlines doc.outline 0) with
    | nil => rw [hl] at hhead; cases hhead
    | cons a rest =>
      rw [hl] at hhead
      obtain rfl : a = s0 := by simpa using hhead
      exact List.mem_cons_self _ _
  have hstub : process_outlines doc.outline 0 ≠ [] := by
    intro h2
    rw [h2] at hhead
    cases hhead
  have hvalid2 : ∀ s ∈ sortStubs (process_outlines doc.outline 0),
      s.start_page < doc.pages.length :=
    fun s hs => hvalid s ((sortStubs_perm _).mem_iff.1 hs)
  have hstrict := sortStubs_strict (process_outlines doc.outline 0) hnd
  have hs0lt : s0.start_page < doc.pages.length := hvalid2 s0 hs0mem
  refine ⟨?_, ?_, pdf_to_json_chapters doc hstub, ?_⟩
  · intro p hp
    exact assignRanges_countP _ _ s0 hhead hstrict hvalid2 p hp
  · intro p hp
    have h := assignRanges_countP _ _ s0 hhead hstrict hvalid2 p (by omega)
    rw [h, if_neg (by omega)]
  · rw [List.map_map]
    have hcomp : ((fun c => c.pages.length) ∘ fillChapter doc) =
        fun se : ChapterStub × Int => (pageRange se.1.start_page se.2).length := by
      funext se
      simp [fillChapter]
    rw [hcomp]
    exact assignRanges_sum _ _ s0 hhead hstrict hvalid2

/-- C10 (witness): a three-page document whose outline resolves to start
pages `[2, 1]` — page 1 lies in exactly one chapter, page 0 in none. -/
theorem c10_witness :
    (assignRanges (sortStubs (process_outlines
        [OutlineItem.node (some (str ("A"), 2)),
         OutlineItem.node (some (str ("B"), 1))] 0)) 3).countP
      (fun se => decide (1 ∈ pageRange se.1.start_page se.2)) = 1 ∧
    (assignRanges (sortStubs (process_outlines
        [OutlineItem.node (some (str ("A"), 2)),
         OutlineItem.node (some (str ("B"), 1))] 0)) 3).countP
      (fun se => decide (0 ∈ pageRange se.1.start_page se.2)) = 0 := by
  have h := c10_page_partition
    ⟨[], [OutlineItem.node (some (str ("A"), 2)),
          OutlineItem.node (some (str ("B"), 1))],
      [⟨none, none⟩, ⟨none, none⟩, ⟨none, none⟩]⟩
    ⟨str ("B"), 0, 1⟩ (by decide) (by decide) (by decide)
  exact ⟨h.1 1 (by decide), h.2.1 0 (by decide)⟩
